import Mathlib

/-!
Verification of the PixelRig skeletal transform and deformation engine.

The TypeScript sources (src/store/useBoneStore.ts, src/pixi/SceneManager.ts,
src/pixi/PixelSnapFilter.ts + pixelSnap.frag, src/utils/math.ts) are shallowly
embedded below.  JavaScript numbers are modelled as real numbers; `Math.cos`,
`Math.sin` and `Math.sqrt` become `Real.cos`, `Real.sin`, `Real.sqrt`.  The
uuid strings used as bone ids are modelled as natural numbers drawn from a
monotone counter `nextId` (uuids are fresh and never reused, which is all the
code relies on).  Zustand's `set` with a partial record is modelled by explicit
record updates that leave every unmentioned field unchanged.
-/

namespace PixelRig

/-- 2-D point, as used for bone positions and mesh vertices. -/
structure Vec2 where
  x : ℝ
  y : ℝ


/-- `Bone` record from src/types/index.ts. -/
structure Bone where
  id : ℕ
  name : String
  parentId : Option ℕ
  position : Vec2
  rotation : ℝ
  length : ℝ
  radius : ℝ


/-- `WorldTransform` record from src/types/index.ts. -/
structure WorldTransform where
  x : ℝ
  y : ℝ
  rotation : ℝ


/-- The tool union type `'select' | 'addJoint' | 'addBone'`. -/
inductive Tool where
  | select
  | addJoint
  | addBoneTool
deriving DecidableEq

/-- One snapshot entry of the bind pose: `{position, rotation}`. -/
structure BindPoseEntry where
  position : Vec2
  rotation : ℝ


/-- `distance` from src/utils/math.ts: Euclidean distance between two points. -/
noncomputable def distance (x1 y1 x2 y2 : ℝ) : ℝ :=
  Real.sqrt ((x2 - x1) ^ 2 + (y2 - y1) ^ 2)

/-- `bones.find((b) => b.id === id)`: first bone with the given id. -/
def findBone (bones : List Bone) (id : ℕ) : Option Bone :=
  bones.find? (fun b => b.id == id)

/-- The ancestor chain built by the while-loop of `getWorldTransform`
(src/store/useBoneStore.ts): starting from the bone itself, repeatedly
`unshift` the current bone and step to its parent.  The TypeScript loop has no
fuel; here the fuel bounds the number of parent steps, and `bones.length`
steps suffice for any forest. -/
def ancestorChain (bones : List Bone) : ℕ → Bone → List Bone
  | 0, b => [b]
  | fuel + 1, b =>
    match b.parentId with
    | none => [b]
    | some pid =>
      match findBone bones pid with
      | none => [b]
      | some p => ancestorChain bones fuel p ++ [b]

/-- One step of the accumulation loop of `getWorldTransform`: rotate the
bone's local position by the accumulated world rotation, add it to the
accumulated world position, then add the bone's local rotation. -/
noncomputable def transformStep (w : WorldTransform) (b : Bone) : WorldTransform :=
  { x := w.x + (Real.cos w.rotation * b.position.x - Real.sin w.rotation * b.position.y)
    y := w.y + (Real.sin w.rotation * b.position.x + Real.cos w.rotation * b.position.y)
    rotation := w.rotation + b.rotation }

/-- `getWorldTransform` from src/store/useBoneStore.ts: walk up the hierarchy,
then fold the chain root-first from the identity transform.  Unknown ids give
the identity `(0,0,0)`. -/
noncomputable def getWorldTransform (bones : List Bone) (boneId : ℕ) : WorldTransform :=
  match findBone bones boneId with
  | none => ⟨0, 0, 0⟩
  | some b => (ancestorChain bones bones.length b).foldl transformStep ⟨0, 0, 0⟩

/-! ## Editor store (src/store/useBoneStore.ts) -/

/-- The `Omit<Bone, 'id' | 'name'>` argument of `addBone`. -/
structure BoneData where
  parentId : Option ℕ
  position : Vec2
  rotation : ℝ
  length : ℝ
  radius : ℝ

/-- A `Partial<Bone>` update as taken by `updateBone`.  A `some` field is
present in the update object and overrides the bone's field; a `none` field is
absent and leaves the bone's field alone. -/
structure BoneUpdate where
  id : Option ℕ := none
  name : Option String := none
  parentId : Option (Option ℕ) := none
  position : Option Vec2 := none
  rotation : Option ℝ := none
  length : Option ℝ := none
  radius : Option ℝ := none

/-- The spread `{...b, ...updates}`: present update fields override. -/
def applyUpdate (b : Bone) (u : BoneUpdate) : Bone :=
  { id := u.id.getD b.id
    name := u.name.getD b.name
    parentId := u.parentId.getD b.parentId
    position := u.position.getD b.position
    rotation := u.rotation.getD b.rotation
    length := u.length.getD b.length
    radius := u.radius.getD b.radius }

/-- The Zustand editor state (data fields of `EditorState`).  `nextId` is the
model of the uuid generator: the next fresh id. -/
structure EditorState where
  bones : List Bone
  activeBoneId : Option ℕ
  activeTool : Tool
  isBound : Bool
  spriteDataUrl : Option String
  generatedSpriteUrl : Option String
  generationError : Option String
  isGenerating : Bool
  generationRequestId : ℕ
  bindPose : Option (List (ℕ × BindPoseEntry))
  virtualResolution : ℕ
  canvasSize : ℕ
  nextId : ℕ

/-- The store's initial state. -/
def initialState : EditorState :=
  { bones := []
    activeBoneId := none
    activeTool := Tool.select
    isBound := false
    spriteDataUrl := none
    generatedSpriteUrl := none
    generationError := none
    isGenerating := false
    generationRequestId := 0
    bindPose := none
    virtualResolution := 64
    canvasSize := 1024
    nextId := 0 }

/-- `addBone`: build the bone from the given data with a fresh id and the
sequential display name, then append it to the collection.  The code performs
no validation of `boneData.parentId`. -/
def addBone (s : EditorState) (boneData : BoneData) : EditorState :=
  let boneCount := s.bones.length
  let bone : Bone :=
    { id := s.nextId
      name := "Bone_" ++ toString (boneCount + 1)
      parentId := boneData.parentId
      position := boneData.position
      rotation := boneData.rotation
      length := boneData.length
      radius := boneData.radius }
  { s with bones := s.bones ++ [bone], nextId := s.nextId + 1 }

/-- The recursive `collectChildren` closure of `removeBone`: add the id, then
recurse into every bone whose `parentId` is that id.  The TypeScript recursion
has no fuel (and diverges on a cyclic collection); `bones.length` levels of
fuel suffice for any forest. -/
def collectDesc (bones : List Bone) : ℕ → ℕ → List ℕ
  | 0, pid => [pid]
  | fuel + 1, pid =>
    pid :: (bones.filter (fun b => b.parentId == some pid)).flatMap
      (fun child => collectDesc bones fuel child.id)

/-- `removeBone`: drop every bone whose id is in the collected set, and clear
the selection exactly when the selected id is in that set. -/
def removeBone (s : EditorState) (id : ℕ) : EditorState :=
  let toRemove := collectDesc s.bones s.bones.length id
  { s with
    bones := s.bones.filter (fun b => !(toRemove.contains b.id))
    activeBoneId :=
      match s.activeBoneId with
      | some a => if toRemove.contains a then none else some a
      | none => none }

/-- `updateBone`: merge the given fields into the bone with the given id. -/
def updateBone (s : EditorState) (id : ℕ) (updates : BoneUpdate) : EditorState :=
  { s with bones := s.bones.map (fun b => if b.id == id then applyUpdate b updates else b) }

/-- `setActiveBone`. -/
def setActiveBone (s : EditorState) (id : Option ℕ) : EditorState :=
  { s with activeBoneId := id }

/-- `setActiveTool`. -/
def setActiveTool (s : EditorState) (tool : Tool) : EditorState :=
  { s with activeTool := tool }

/-- The `reduce` in `setBound(true)` that snapshots every bone's current
position and rotation keyed by id.  The JavaScript record is modelled as the
association list of its insertions (later entries override earlier ones, see
`poseLookup`). -/
def snapshotPose (bones : List Bone) : List (ℕ × BindPoseEntry) :=
  bones.map (fun b => (b.id, ⟨b.position, b.rotation⟩))

/-- JavaScript record lookup `bindPose[id]` against the insertion list: the
last inserted entry with the key wins. -/
def poseLookup (m : List (ℕ × BindPoseEntry)) (id : ℕ) : Option BindPoseEntry :=
  (m.reverse.find? (fun e => e.1 == id)).map (fun e => e.2)

/-- `setBound`: binding snapshots the bind pose and forces the `select` tool;
unbinding clears the snapshot.  All other fields are left unchanged. -/
def setBound (s : EditorState) (bound : Bool) : EditorState :=
  if bound then
    { s with isBound := true, activeTool := Tool.select, bindPose := some (snapshotPose s.bones) }
  else
    { s with isBound := false, bindPose := none }

/-- `setSpriteDataUrl`: store the url and clear binding/generation state. -/
def setSpriteDataUrl (s : EditorState) (url : Option String) : EditorState :=
  { s with
    spriteDataUrl := url
    isBound := false
    generatedSpriteUrl := none
    generationError := none
    isGenerating := false
    bindPose := none }

/-- `resetPose`: no-op without a snapshot; otherwise overwrite each bone that
has a snapshot entry with the snapshotted position and rotation. -/
def resetPose (s : EditorState) : EditorState :=
  match s.bindPose with
  | none => s
  | some m =>
    { s with
      bones := s.bones.map (fun bone =>
        match poseLookup m bone.id with
        | none => bone
        | some pose => { bone with position := pose.position, rotation := pose.rotation }) }

/-! ## Pixel-snap sampler (src/pixi/pixelSnap.frag, src/pixi/PixelSnapFilter.ts) -/

/-- The UV quantization of the fragment shader:
`snappedUV = floor(vTextureCoord * uResolution) / uResolution`. -/
noncomputable def snapUV (resolution : ℝ) (uv : ℝ × ℝ) : ℝ × ℝ :=
  ((⌊uv.1 * resolution⌋ : ℝ) / resolution, (⌊uv.2 * resolution⌋ : ℝ) / resolution)

/-- `main` of pixelSnap.frag: sample the bound texture at the snapped UV.
The texture unit's sampling function is the parameter `sample`. -/
noncomputable def pixelSnapMain {Color : Type} (resolution : ℝ)
    (sample : ℝ × ℝ → Color) (uv : ℝ × ℝ) : Color :=
  sample (snapUV resolution uv)

/-- Nearest-neighbor (non-interpolated) sampling of a source texture of
`n × n` texels, as configured by `texture.source.scaleMode = 'nearest'` in
`SceneManager.loadSprite`: the texel index is the floor of the coordinate
scaled by the texel count, clamped to the edge. -/
noncomputable def textureNearest {Color : Type} (texel : ℤ → ℤ → Color) (n : ℕ)
    (uv : ℝ × ℝ) : Color :=
  texel (min (n - 1 : ℤ) (max 0 ⌊uv.1 * n⌋)) (min (n - 1 : ℤ) (max 0 ⌊uv.2 * n⌋))

/-! ## Scene manager (src/pixi/SceneManager.ts) -/

/-- Which point of a bone a pick refers to: its world origin or, when
`length > 0`, its world end point (`'origin' | 'end'` in the source). -/
inductive Attach where
  | origin
  | endpoint
deriving DecidableEq

/-- The running `closest` record of `findClosestBone`: id, distance, attach. -/
structure Cand where
  id : ℕ
  dist : ℝ
  attach : Attach

/-- The per-candidate update of `findClosestBone`'s scan:
`if (d < maxDist && (!closest || d < closest.dist)) closest = {...}`
with `maxDist = 20`. -/
noncomputable def candStep (closest : Option Cand) (c : Cand) : Option Cand :=
  match closest with
  | none => if c.dist < 20 then some c else none
  | some b => if c.dist < 20 ∧ c.dist < b.dist then some c else some b

/-- The pick candidates of one bone, in the order the code tests them: the
world origin first, then (only when `bone.length > 0`) the world end point
`origin + length * (cos worldRot, sin worldRot)`. -/
noncomputable def boneCands (bones : List Bone) (x y : ℝ) (bone : Bone) : List Cand :=
  let world := getWorldTransform bones bone.id
  ⟨bone.id, distance world.x world.y x y, Attach.origin⟩ ::
    (if 0 < bone.length then
      [⟨bone.id,
        distance (world.x + Real.cos world.rotation * bone.length)
          (world.y + Real.sin world.rotation * bone.length) x y,
        Attach.endpoint⟩]
    else [])

/-- All pick candidates in scan order. -/
noncomputable def pickCands (bones : List Bone) (x y : ℝ) : List Cand :=
  bones.flatMap (boneCands bones x y)

/-- `findClosestBone`: scan all bones, keeping the strictly-closest candidate
under the 20-unit threshold; return its id and attach point, or `null`. -/
noncomputable def findClosestBone (bones : List Bone) (x y : ℝ) : Option (ℕ × Attach) :=
  ((pickCands bones x y).foldl candStep none).map (fun c => (c.id, c.attach))

/-- The tool actually interpreted by the `pointerdown` handler:
`store.isBound ? 'select' : store.activeTool`. -/
def toolForPointerDown (s : EditorState) : Tool :=
  if s.isBound then Tool.select else s.activeTool

/-- One `bindData` entry: controlling bone id, the vertex offset expressed in
that bone's bind-time frame, and the vertex-buffer index it is written back
to. -/
structure BindEntry where
  boneId : ℕ
  localX : ℝ
  localY : ℝ
  index : ℕ

/-- The mesh-related state of `SceneManager`.  The interleaved `Float32Array`
vertex buffer (stride 2 floats, offset 0 for the plane geometry built by
`createPlaneGeometry`) is modelled as the list of its `(x, y)` vertex pairs;
`BindEntry.index` is the vertex index in that list. -/
structure Scene where
  currentMesh : Option (List Vec2)
  bindData : Option (List BindEntry)
  originalVertices : Option (List Vec2)

/-- One step of the controlling-bone scan of `bindSkeleton`: `d < minDist`
(`minDist` starting from `Infinity`, modelled by the `none` accumulator), so
a later bone replaces the best candidate only when strictly closer and the
first bone scanned wins exact ties. -/
noncomputable def closestStep (bones : List Bone) (v : Vec2)
    (best : Option (ℕ × WorldTransform × ℝ)) (bone : Bone) :
    Option (ℕ × WorldTransform × ℝ) :=
  let world := getWorldTransform bones bone.id
  let d := distance world.x world.y v.x v.y
  match best with
  | none => some (bone.id, world, d)
  | some (bid, w, bd) => if d < bd then some (bone.id, world, d) else some (bid, w, bd)

/-- The inner scan of `bindSkeleton`: find the bone whose world origin is
closest to the vertex together with its world transform and distance. -/
noncomputable def closestBoneTo (bones : List Bone) (v : Vec2) :
    Option (ℕ × WorldTransform × ℝ) :=
  bones.foldl (closestStep bones v) none

/-- The bind entry recorded for vertex `v` at buffer index `i`: the offset
from the winning bone's world origin, rotated by the negative of the bone's
world rotation. -/
noncomputable def bindEntryFor (bones : List Bone) (i : ℕ) (v : Vec2) : Option BindEntry :=
  match closestBoneTo bones v with
  | none => none
  | some (bid, world, _) =>
    let dx := v.x - world.x
    let dy := v.y - world.y
    let c := Real.cos (-world.rotation)
    let s := Real.sin (-world.rotation)
    some ⟨bid, c * dx - s * dy, s * dx + c * dy, i⟩

/-- The vertex loop of `bindSkeleton`: one bind entry per vertex (an entry is
pushed whenever a closest bone exists, i.e. always when the skeleton is
nonempty). -/
noncomputable def bindVertices (bones : List Bone) (verts : List Vec2) : List BindEntry :=
  verts.enum.filterMap (fun iv => bindEntryFor bones iv.1 iv.2)

/-- `bindSkeleton`: no-op without a mesh or with zero bones; otherwise save
the current vertices as `originalVertices` and compute `bindData`.  The mesh
vertices themselves are only read. -/
noncomputable def bindSkeleton (sc : Scene) (bones : List Bone) : Scene :=
  match sc.currentMesh with
  | none => sc
  | some verts =>
    if bones.isEmpty then sc
    else { sc with
            originalVertices := some verts
            bindData := some (bindVertices bones verts) }

/-- `unbindSkeleton`: no-op without a mesh or saved vertices; otherwise write
the saved original vertices back into the buffer and discard `bindData`
(`originalVertices` itself is not cleared by the code). -/
def unbindSkeleton (sc : Scene) : Scene :=
  match sc.currentMesh, sc.originalVertices with
  | some _, some orig => { sc with currentMesh := some orig, bindData := none }
  | _, _ => sc

/-- The vertex written by `updateDeformation` for one bind entry: the bone's
current world position plus the stored local offset rotated by the bone's
current world rotation. -/
noncomputable def deformedVertex (bones : List Bone) (e : BindEntry) : Vec2 :=
  let world := getWorldTransform bones e.boneId
  let c := Real.cos world.rotation
  let s := Real.sin world.rotation
  ⟨world.x + (c * e.localX - s * e.localY), world.y + (s * e.localX + c * e.localY)⟩

/-- `updateDeformation`: no-op without a mesh or bind data; otherwise write
each entry's deformed vertex into the buffer at the entry's recorded index. -/
noncomputable def updateDeformation (sc : Scene) (bones : List Bone) : Scene :=
  match sc.currentMesh, sc.bindData with
  | some verts, some bd =>
    { sc with
      currentMesh := some (bd.foldl (fun vs e => vs.set e.index (deformedVertex bones e)) verts) }
  | _, _ => sc

/-! ## The forest invariant -/

/-- `ForestFrom seen bones`: reading `bones` in insertion order after the ids
`seen` have already been inserted, every id is fresh and every parent
reference names an already-inserted id.  `Forest bones` (with `seen = []`) is
the spec's invariant: the collection is a forest — every `parentId` is none or
names a bone that exists earlier in insertion order, so no bone is its own
ancestor. -/
def ForestFrom : List ℕ → List Bone → Prop
  | _, [] => True
  | seen, b :: rest =>
    b.id ∉ seen ∧ (∀ pid, b.parentId = some pid → pid ∈ seen) ∧ ForestFrom (b.id :: seen) rest

/-- The spec's forest invariant on a bone collection. -/
def Forest (bones : List Bone) : Prop := ForestFrom [] bones

/-- `childStep bones x y`: some bone in the collection has id `y` and parent
id `x`. -/
def childStep (bones : List Bone) (x y : ℕ) : Prop :=
  ∃ c ∈ bones, c.id = y ∧ c.parentId = some x

/-- `y` is `root` itself or a transitive descendant of `root` in the
collection. -/
def DescSelf (bones : List Bone) (root y : ℕ) : Prop :=
  Relation.ReflTransGen (childStep bones) root y

lemma forestFrom_seen_disjoint :
    ∀ (bones : List Bone) (seen : List ℕ), ForestFrom seen bones →
      ∀ id ∈ seen, id ∉ bones.map Bone.id := by
  intro bones
  induction bones with
  | nil => intro seen _ id _ h; simp at h
  | cons b rest ih =>
    intro seen hF id hid hmem
    obtain ⟨hb, _, hrest⟩ := hF
    rcases List.mem_cons.mp hmem with h | h
    · exact hb (h ▸ hid)
    · exact ih (b.id :: seen) hrest id (List.mem_cons_of_mem _ hid) h

lemma forestFrom_nodup_ids :
    ∀ (bones : List Bone) (seen : List ℕ), ForestFrom seen bones →
      (bones.map Bone.id).Nodup := by
  intro bones
  induction bones with
  | nil => intro seen _; simp
  | cons b rest ih =>
    intro seen hF
    obtain ⟨_, _, hrest⟩ := hF
    refine List.nodup_cons.mpr ⟨?_, ih _ hrest⟩
    exact forestFrom_seen_disjoint rest (b.id :: seen) hrest b.id (List.mem_cons_self _ _)

lemma forest_nodup_ids {bones : List Bone} (h : Forest bones) :
    (bones.map Bone.id).Nodup :=
  forestFrom_nodup_ids bones [] h

lemma findBone_some {bones : List Bone} {pid : ℕ} {p : Bone}
    (h : findBone bones pid = some p) : p ∈ bones ∧ p.id = pid := by
  refine ⟨List.mem_of_find?_eq_some h, ?_⟩
  have := List.find?_some h
  simpa using this

lemma findBone_eq_of_mem :
    ∀ (bones : List Bone), (bones.map Bone.id).Nodup →
      ∀ b ∈ bones, findBone bones b.id = some b := by
  intro bones
  induction bones with
  | nil => intro _ b hb; simp at hb
  | cons c rest ih =>
    intro hnd b hb
    rcases List.mem_cons.mp hb with rfl | hb'
    · simp [findBone]
    · have hne : c.id ≠ b.id := by
        intro he
        have : c.id ∈ rest.map Bone.id := he ▸ List.mem_map_of_mem Bone.id hb'
        exact (List.nodup_cons.mp hnd).1 this
      have := ih (List.nodup_cons.mp hnd).2 b hb'
      simpa [findBone, List.find?_cons, Ne.symm hne, beq_iff_eq, hne] using this

lemma forestFrom_parent_index :
    ∀ (bones : List Bone) (seen : List ℕ), ForestFrom seen bones →
      ∀ (i : ℕ) (hi : i < bones.length) (pid : ℕ),
        (bones.get ⟨i, hi⟩).parentId = some pid →
        pid ∈ seen ∨ ∃ j, ∃ hj : j < bones.length, j < i ∧ (bones.get ⟨j, hj⟩).id = pid := by
  intro bones
  induction bones with
  | nil => intro seen _ i hi; simp at hi
  | cons b rest ih =>
    intro seen hF i hi pid hp
    obtain ⟨_, hpar, hrest⟩ := hF
    cases i with
    | zero => exact Or.inl (hpar pid hp)
    | succ i' =>
      have hi' : i' < rest.length := by simpa using Nat.lt_of_succ_lt_succ hi
      have := ih (b.id :: seen) hrest i' hi' pid (by simpa using hp)
      rcases this with h | ⟨j, hj, hji, hid⟩
      · rcases List.mem_cons.mp h with h | h
        · exact Or.inr ⟨0, Nat.succ_pos _, Nat.succ_pos _, h.symm⟩
        · exact Or.inl h
      · exact Or.inr ⟨j + 1, Nat.succ_lt_succ hj, Nat.succ_lt_succ hji, by simpa using hid⟩

lemma forest_parent_index {bones : List Bone} (h : Forest bones)
    {i : ℕ} (hi : i < bones.length) {pid : ℕ}
    (hp : (bones.get ⟨i, hi⟩).parentId = some pid) :
    ∃ j, ∃ hj : j < bones.length, j < i ∧ (bones.get ⟨j, hj⟩).id = pid := by
  rcases forestFrom_parent_index bones [] h i hi pid hp with h' | h'
  · simp at h'
  · exact h'

lemma ancestorChain_parent_none {bones : List Bone} {b : Bone}
    (h : b.parentId = none) : ∀ fuel, ancestorChain bones fuel b = [b] := by
  intro fuel; cases fuel <;> simp [ancestorChain, h]

/-- Under the forest invariant, the ancestor chain of the bone at index `i`
is the same for every fuel value of at least `i`: the while-loop of
`getWorldTransform` terminates within `i` parent steps. -/
lemma ancestorChain_stable {bones : List Bone} (hF : Forest bones) :
    ∀ (i : ℕ) (hi : i < bones.length) (f₁ f₂ : ℕ), i ≤ f₁ → i ≤ f₂ →
      ancestorChain bones f₁ (bones.get ⟨i, hi⟩) =
        ancestorChain bones f₂ (bones.get ⟨i, hi⟩) := by
  intro i
  induction i using Nat.strong_induction_on with
  | _ i IH =>
    intro hi f₁ f₂ h₁ h₂
    cases hp : (bones.get ⟨i, hi⟩).parentId with
    | none => rw [ancestorChain_parent_none hp, ancestorChain_parent_none hp]
    | some pid =>
      obtain ⟨j, hj, hji, hjid⟩ := forest_parent_index hF hi hp
      have hfind : findBone bones pid = some (bones.get ⟨j, hj⟩) := by
        have := findBone_eq_of_mem bones (forest_nodup_ids hF) _ (bones.get_mem j hj)
        rwa [hjid] at this
      obtain ⟨k₁, rfl⟩ : ∃ k, f₁ = k + 1 := ⟨f₁ - 1, by omega⟩
      obtain ⟨k₂, rfl⟩ : ∃ k, f₂ = k + 1 := ⟨f₂ - 1, by omega⟩
      simp only [ancestorChain, hp, hfind]
      rw [IH j hji hj k₁ k₂ (by omega) (by omega)]

lemma getWorldTransform_of_mem {bones : List Bone} (hnd : (bones.map Bone.id).Nodup)
    {b : Bone} (hb : b ∈ bones) :
    getWorldTransform bones b.id
      = (ancestorChain bones bones.length b).foldl transformStep ⟨0, 0, 0⟩ := by
  unfold getWorldTransform
  rw [findBone_eq_of_mem bones hnd b hb]

/-- Under the forest invariant, the world transform of a non-root bone is one
`transformStep` applied to its parent's world transform. -/
lemma getWorldTransform_parent {bones : List Bone} (hF : Forest bones)
    {b P : Bone} (hb : b ∈ bones) {pid : ℕ} (hp : b.parentId = some pid)
    (hfind : findBone bones pid = some P) :
    getWorldTransform bones b.id = transformStep (getWorldTransform bones pid) b := by
  have hnd := forest_nodup_ids hF
  obtain ⟨⟨i, hi⟩, hbi⟩ := List.mem_iff_get.mp hb
  obtain ⟨hPmem, hPid⟩ := findBone_some hfind
  obtain ⟨⟨j, hj⟩, hPj⟩ := List.mem_iff_get.mp hPmem
  obtain ⟨k, hk⟩ : ∃ k, bones.length = k + 1 := ⟨bones.length - 1, by omega⟩
  have h2 : getWorldTransform bones pid
      = (ancestorChain bones bones.length P).foldl transformStep ⟨0, 0, 0⟩ := by
    unfold getWorldTransform
    rw [hfind]
  have hchain : ancestorChain bones bones.length b = ancestorChain bones k P ++ [b] := by
    conv_lhs => rw [hk]
    rw [← hbi]
    simp only [ancestorChain]
    rw [hbi]
    simp only [hp, hfind]
  have hstable : ancestorChain bones k P = ancestorChain bones bones.length P := by
    rw [← hPj]
    exact ancestorChain_stable hF j hj k bones.length (by omega) (by omega)
  rw [getWorldTransform_of_mem hnd hb, hchain, List.foldl_append, hstable, h2]
  rfl

/-- C1: `getWorldTransform` satisfies the forward-kinematics composition law.
A bone with no parent has world transform `{B.position, B.rotation}`; a bone
whose `parentId` names an existing bone `P` has world rotation equal to the
parent's world rotation plus its own local rotation (exact equality, hence in
particular equality mod 2π) and world position equal to the parent's world
position plus its local position rotated by the parent's world rotation. -/
theorem c1_world_transform_composition (bones : List Bone) (hF : Forest bones) :
    (∀ b ∈ bones, b.parentId = none →
      getWorldTransform bones b.id = ⟨b.position.x, b.position.y, b.rotation⟩) ∧
    (∀ b ∈ bones, ∀ (pid : ℕ) (P : Bone), b.parentId = some pid →
      findBone bones pid = some P →
      (getWorldTransform bones b.id).rotation
          = (getWorldTransform bones pid).rotation + b.rotation ∧
      (getWorldTransform bones b.id).x
          = (getWorldTransform bones pid).x
            + (Real.cos (getWorldTransform bones pid).rotation * b.position.x
               - Real.sin (getWorldTransform bones pid).rotation * b.position.y) ∧
      (getWorldTransform bones b.id).y
          = (getWorldTransform bones pid).y
            + (Real.sin (getWorldTransform bones pid).rotation * b.position.x
               + Real.cos (getWorldTransform bones pid).rotation * b.position.y)) := by
  constructor
  · intro b hb hp
    rw [getWorldTransform_of_mem (forest_nodup_ids hF) hb, ancestorChain_parent_none hp]
    simp [transformStep]
  · intro b hb pid P hp hfind
    rw [getWorldTransform_parent hF hb hp hfind]
    exact ⟨rfl, rfl, rfl⟩

/-- A concrete root bone used to instantiate theorems. -/
def rootBone : Bone := ⟨0, "Bone_1", none, ⟨100, 100⟩, 0, 50, 50⟩

/-- A concrete child bone of `rootBone`. -/
def childBone : Bone := ⟨1, "Bone_2", some 0, ⟨50, 0⟩, 0, 30, 50⟩

lemma forest_root_child : Forest [rootBone, childBone] := by
  simp [Forest, ForestFrom, rootBone, childBone]

theorem c1_witness :
    (∀ b ∈ [rootBone, childBone], b.parentId = none →
      getWorldTransform [rootBone, childBone] b.id
        = ⟨b.position.x, b.position.y, b.rotation⟩) ∧
    (∀ b ∈ [rootBone, childBone], ∀ (pid : ℕ) (P : Bone), b.parentId = some pid →
      findBone [rootBone, childBone] pid = some P →
      (getWorldTransform [rootBone, childBone] b.id).rotation
          = (getWorldTransform [rootBone, childBone] pid).rotation + b.rotation ∧
      (getWorldTransform [rootBone, childBone] b.id).x
          = (getWorldTransform [rootBone, childBone] pid).x
            + (Real.cos (getWorldTransform [rootBone, childBone] pid).rotation * b.position.x
               - Real.sin (getWorldTransform [rootBone, childBone] pid).rotation * b.position.y) ∧
      (getWorldTransform [rootBone, childBone] b.id).y
          = (getWorldTransform [rootBone, childBone] pid).y
            + (Real.sin (getWorldTransform [rootBone, childBone] pid).rotation * b.position.x
               + Real.cos (getWorldTransform [rootBone, childBone] pid).rotation * b.position.y)) :=
  c1_world_transform_composition [rootBone, childBone] forest_root_child

/-- C10: `setBound true` sets `isBound`, snapshots the bind pose, and forcibly
switches the active tool to `select`, while leaving the bone collection, the
active selection and the sprite URL unchanged; and while bound the
`pointerdown` handler interprets events with the `select` tool regardless of
the stored active tool. -/
theorem c10_setBound_effects (s : EditorState) :
    (setBound s true).isBound = true ∧
    (setBound s true).activeTool = Tool.select ∧
    (setBound s true).bindPose = some (snapshotPose s.bones) ∧
    (setBound s true).bones = s.bones ∧
    (setBound s true).activeBoneId = s.activeBoneId ∧
    (setBound s true).spriteDataUrl = s.spriteDataUrl ∧
    (∀ s₂ : EditorState, s₂.isBound = true → toolForPointerDown s₂ = Tool.select) := by
  refine ⟨rfl, rfl, rfl, rfl, rfl, rfl, fun s₂ h => ?_⟩
  simp [toolForPointerDown, h]

theorem c10_witness :
    (setBound initialState true).isBound = true ∧
    toolForPointerDown (setBound initialState true) = Tool.select := by
  have h := c10_setBound_effects initialState
  exact ⟨h.1, h.2.2.2.2.2.2 (setBound initialState true) h.1⟩

/-- C4 counterexample: `addBone` called on the empty store with a `parentId`
that names no bone is not a no-op — the bone collection changes (an orphan
bone is appended). -/
theorem c4_counterexample :
    findBone initialState.bones 99 = none ∧
    (addBone initialState ⟨some 99, ⟨0, 0⟩, 0, 0, 50⟩).bones ≠ initialState.bones := by
  constructor
  · rfl
  · simp [addBone, initialState]

/-- C4 amended: `addBone` performs no parent validation at all.  Even when
`parentId` names no bone in the collection, the bone (with a fresh id and the
sequential display name) is appended unconditionally, creating an orphan;
callers are responsible for validating the parent id. -/
theorem c4_amended_addBone_unconditional (s : EditorState) (d : BoneData) (pid : ℕ)
    (hp : d.parentId = some pid) (hmiss : findBone s.bones pid = none) :
    (addBone s d).bones
      = s.bones ++ [{ id := s.nextId
                      name := "Bone_" ++ toString (s.bones.length + 1)
                      parentId := d.parentId
                      position := d.position
                      rotation := d.rotation
                      length := d.length
                      radius := d.radius }] := rfl

theorem c4_witness :
    (addBone initialState ⟨some 99, ⟨0, 0⟩, 0, 0, 50⟩).bones
      = initialState.bones
        ++ [{ id := initialState.nextId
              name := "Bone_" ++ toString (initialState.bones.length + 1)
              parentId := some 99
              position := ⟨0, 0⟩
              rotation := 0
              length := 0
              radius := 50 }] :=
  c4_amended_addBone_unconditional initialState ⟨some 99, ⟨0, 0⟩, 0, 0, 50⟩ 99 rfl rfl

/-- C6: unbinding immediately after binding (no pose change in between)
restores every vertex position exactly — the buffer equals the pre-bind
vertex list verbatim — and all bind entries are discarded. -/
theorem c6_bind_unbind_roundtrip (sc : Scene) (bones : List Bone) (verts : List Vec2)
    (hm : sc.currentMesh = some verts) (hb : bones ≠ []) :
    (unbindSkeleton (bindSkeleton sc bones)).currentMesh = some verts ∧
    (unbindSkeleton (bindSkeleton sc bones)).bindData = none := by
  have hbe : bones.isEmpty = false := by
    cases bones with
    | nil => exact absurd rfl hb
    | cons a l => rfl
  simp [bindSkeleton, hm, hbe, unbindSkeleton]

theorem c6_witness :
    (unbindSkeleton (bindSkeleton ⟨some [⟨0, 0⟩], none, none⟩ [rootBone])).currentMesh
        = some [⟨0, 0⟩] ∧
    (unbindSkeleton (bindSkeleton ⟨some [⟨0, 0⟩], none, none⟩ [rootBone])).bindData = none :=
  c6_bind_unbind_roundtrip ⟨some [⟨0, 0⟩], none, none⟩ [rootBone] [⟨0, 0⟩] rfl
    (by simp)

/-- C3: quantization law of the pixel-snap sampler.  For any texture
coordinate in the unit square and any positive virtual resolution `R`, the
fragment shader's output equals the nearest-neighbor (non-interpolated)
sample of the source texture at `(floor(u*R)/R, floor(v*R)/R)`, and the
quantized coordinates stay inside `[0,1]`. -/
theorem c3_quantization_law {Color : Type} (texel : ℤ → ℤ → Color) (n : ℕ)
    (R u v : ℝ) (hu0 : 0 ≤ u) (hu1 : u ≤ 1) (hv0 : 0 ≤ v) (hv1 : v ≤ 1) (hR : 0 < R) :
    pixelSnapMain R (textureNearest texel n) (u, v)
        = textureNearest texel n ((⌊u * R⌋ : ℝ) / R, (⌊v * R⌋ : ℝ) / R) ∧
    0 ≤ (⌊u * R⌋ : ℝ) / R ∧ (⌊u * R⌋ : ℝ) / R ≤ 1 ∧
    0 ≤ (⌊v * R⌋ : ℝ) / R ∧ (⌊v * R⌋ : ℝ) / R ≤ 1 := by
  have bound : ∀ w : ℝ, 0 ≤ w → w ≤ 1 → 0 ≤ (⌊w * R⌋ : ℝ) / R ∧ (⌊w * R⌋ : ℝ) / R ≤ 1 := by
    intro w hw0 hw1
    constructor
    · apply div_nonneg _ hR.le
      exact_mod_cast Int.floor_nonneg.mpr (mul_nonneg hw0 hR.le)
    · rw [div_le_one hR]
      calc ((⌊w * R⌋ : ℝ)) ≤ w * R := Int.floor_le _
        _ ≤ 1 * R := by nlinarith
        _ = R := one_mul R
  exact ⟨rfl, (bound u hu0 hu1).1, (bound u hu0 hu1).2, (bound v hv0 hv1).1,
    (bound v hv0 hv1).2⟩

theorem c3_witness :
    pixelSnapMain 2 (textureNearest (fun _ _ => (0 : ℕ)) 4) (1 / 2, 0)
        = textureNearest (fun _ _ => (0 : ℕ)) 4
            ((⌊(1 / 2 : ℝ) * 2⌋ : ℝ) / 2, (⌊(0 : ℝ) * 2⌋ : ℝ) / 2) ∧
    0 ≤ (⌊(1 / 2 : ℝ) * 2⌋ : ℝ) / 2 ∧ (⌊(1 / 2 : ℝ) * 2⌋ : ℝ) / 2 ≤ 1 ∧
    0 ≤ (⌊(0 : ℝ) * 2⌋ : ℝ) / 2 ∧ (⌊(0 : ℝ) * 2⌋ : ℝ) / 2 ≤ 1 :=
  c3_quantization_law (fun _ _ => (0 : ℕ)) 4 2 (1 / 2) 0 (by norm_num) (by norm_num)
    (by norm_num) (by norm_num) (by norm_num)

lemma find_snapshot :
    ∀ (l : List Bone), (l.map Bone.id).Nodup → ∀ b ∈ l,
      (snapshotPose l).find? (fun e => e.1 == b.id)
        = some (b.id, ⟨b.position, b.rotation⟩) := by
  intro l
  induction l with
  | nil => intro _ b hb; simp at hb
  | cons c rest ih =>
    intro hnd b hb
    rcases List.mem_cons.mp hb with rfl | hb'
    · simp [snapshotPose]
    · have hne : c.id ≠ b.id := by
        intro he
        have : c.id ∈ rest.map Bone.id := he ▸ List.mem_map_of_mem Bone.id hb'
        exact (List.nodup_cons.mp hnd).1 this
      have := ih (List.nodup_cons.mp hnd).2 b hb'
      simpa [snapshotPose, List.find?_cons, hne] using this

lemma poseLookup_snapshot {bones : List Bone} (hnd : (bones.map Bone.id).Nodup)
    {b : Bone} (hb : b ∈ bones) :
    poseLookup (snapshotPose bones) b.id = some ⟨b.position, b.rotation⟩ := by
  have hrev : (snapshotPose bones).reverse = snapshotPose bones.reverse := by
    simp [snapshotPose]
  have hnd' : (bones.reverse.map Bone.id).Nodup := by
    rw [List.map_reverse]
    exact List.nodup_reverse.mpr hnd
  have hb' : b ∈ bones.reverse := List.mem_reverse.mpr hb
  unfold poseLookup
  rw [hrev, find_snapshot bones.reverse hnd' b hb']
  rfl

/-- C5: reset-pose round trip.  Binding snapshots every bone; after setting
any bone's rotation to any value, `resetPose` restores the whole collection
exactly to its bind-time state.  More generally, for any snapshot: bones with
a snapshot entry are overwritten with exactly the snapshotted position and
rotation, bones absent from the snapshot (e.g. created after binding) are
left untouched, and `resetPose` is a no-op when no snapshot exists. -/
theorem c5_reset_pose_roundtrip (s : EditorState) (hnd : (s.bones.map Bone.id).Nodup) :
    (∀ (bid : ℕ) (θ : ℝ),
      (resetPose (updateBone (setBound s true) bid { rotation := some θ })).bones = s.bones) ∧
    (∀ m, s.bindPose = some m →
      (resetPose s).bones.length = s.bones.length ∧
      ∀ (i : ℕ) (hi : i < s.bones.length),
        (∀ p, poseLookup m (s.bones.get ⟨i, hi⟩).id = some p →
          (resetPose s).bones[i]?
            = some { s.bones.get ⟨i, hi⟩ with position := p.position, rotation := p.rotation }) ∧
        (poseLookup m (s.bones.get ⟨i, hi⟩).id = none →
          (resetPose s).bones[i]? = some (s.bones.get ⟨i, hi⟩))) ∧
    (s.bindPose = none → resetPose s = s) := by
  refine ⟨?_, ?_, ?_⟩
  · intro bid θ
    have hbp : (updateBone (setBound s true) bid { rotation := some θ }).bindPose
        = some (snapshotPose s.bones) := rfl
    have hbones : (updateBone (setBound s true) bid { rotation := some θ }).bones
        = s.bones.map (fun b =>
            if b.id == bid then applyUpdate b { rotation := some θ } else b) := rfl
    simp only [resetPose, hbp, hbones, List.map_map]
    have : ∀ b ∈ s.bones,
        ((fun bone =>
          match poseLookup (snapshotPose s.bones) bone.id with
          | none => bone
          | some pose => { bone with position := pose.position, rotation := pose.rotation }) ∘
         (fun b => if b.id == bid then applyUpdate b { rotation := some θ } else b)) b = b := by
      intro b hb
      have hlook : poseLookup (snapshotPose s.bones) b.id = some ⟨b.position, b.rotation⟩ :=
        poseLookup_snapshot hnd hb
      by_cases h : b.id == bid
      · simp only [Function.comp_apply, h, if_pos]
        have hid : (applyUpdate b { rotation := some θ }).id = b.id := rfl
        rw [hid, hlook]
        simp [applyUpdate]
      · simp only [Function.comp_apply, h]
        rw [if_neg (by simpa using h), hlook]
    rw [List.map_congr_left this]
    simp
  · intro m hm
    have hres : (resetPose s).bones = s.bones.map (fun bone =>
        match poseLookup m bone.id with
        | none => bone
        | some pose => { bone with position := pose.position, rotation := pose.rotation }) := by
      simp [resetPose, hm]
    constructor
    · rw [hres, List.length_map]
    · intro i hi
      have hget : (resetPose s).bones[i]?
          = some ((fun bone =>
              match poseLookup m bone.id with
              | none => bone
              | some pose =>
                { bone with position := pose.position, rotation := pose.rotation })
            (s.bones.get ⟨i, hi⟩)) := by
        rw [hres, List.getElem?_map, List.getElem?_eq_getElem hi]
        simp [List.get_eq_getElem]
      constructor
      · intro p hp
        rw [hget]
        simp only [hp]
      · intro hp
        rw [hget]
        simp only [hp]
  · intro h
    simp [resetPose, h]

theorem c5_witness :
    (resetPose (updateBone (setBound { initialState with bones := [rootBone, childBone] } true) 1
        { rotation := some 2 })).bones = [rootBone, childBone] := by
  have h := c5_reset_pose_roundtrip { initialState with bones := [rootBone, childBone] }
    (by simp [rootBone, childBone])
  exact h.1 1 2

/-- The candidate a threshold-and-first-wins scan must return: it is under
the 20-unit threshold, no candidate anywhere is strictly closer, and every
candidate scanned before it is strictly farther (so on exact ties the first
candidate in scan order wins). -/
def isPickWinner (l : List Cand) (c : Cand) : Prop :=
  c.dist < 20 ∧
    ∃ pre post, l = pre ++ c :: post ∧
      (∀ c' ∈ pre, c.dist < c'.dist) ∧ (∀ c' ∈ post, c.dist ≤ c'.dist)

lemma candStep_none (c : Cand) :
    candStep none c = if c.dist < 20 then some c else none := rfl

lemma candStep_some (b c : Cand) :
    candStep (some b) c = if c.dist < 20 ∧ c.dist < b.dist then some c else some b := rfl

lemma foldl_candStep_spec :
    ∀ l : List Cand,
      (l.foldl candStep none = none → ∀ c ∈ l, ¬ c.dist < 20) ∧
      (∀ b, l.foldl candStep none = some b → isPickWinner l b) := by
  intro l
  induction l using List.reverseRecOn with
  | nil =>
    constructor
    · intro _ c hc
      simp at hc
    · intro b hb
      simp at hb
  | append_singleton l c ih =>
    simp only [List.foldl_append, List.foldl_cons, List.foldl_nil] at *
    cases hr : l.foldl candStep none with
    | none =>
      have hall := ih.1 hr
      constructor
      · intro hnone c' hc'
        rcases List.mem_append.mp hc' with h | h
        · exact hall c' h
        · simp at h
          subst h
          intro hlt
          rw [candStep_none, if_pos hlt] at hnone
          exact Option.some_ne_none c' hnone
      · intro b hb
        by_cases hc : c.dist < 20
        · rw [candStep_none, if_pos hc] at hb
          obtain rfl : c = b := by injection hb
          refine ⟨hc, l, [], by simp, ?_, by simp⟩
          intro c' hc'
          have := hall c' hc'
          have h20 : (20 : ℝ) ≤ c'.dist := not_lt.mp this
          linarith
        · rw [candStep_none, if_neg hc] at hb
          exact absurd hb (by simp)
    | some b0 =>
      have hw := ih.2 b0 hr
      obtain ⟨hb20, pre, post, hdec, hpre, hpost⟩ := hw
      constructor
      · intro hnone
        exfalso
        by_cases h : c.dist < 20 ∧ c.dist < b0.dist
        · rw [candStep_some, if_pos h] at hnone
          exact Option.some_ne_none c hnone
        · rw [candStep_some, if_neg h] at hnone
          exact Option.some_ne_none b0 hnone
      · intro b hb
        by_cases h : c.dist < 20 ∧ c.dist < b0.dist
        · rw [candStep_some, if_pos h] at hb
          obtain rfl : c = b := by injection hb
          refine ⟨h.1, l, [], by simp, ?_, by simp⟩
          intro c' hc'
          rw [hdec] at hc'
          rcases List.mem_append.mp hc' with hm | hm
          · exact lt_trans h.2 (hpre c' hm)
          · rcases List.mem_cons.mp hm with rfl | hm
            · exact h.2
            · exact lt_of_lt_of_le h.2 (hpost c' hm)
        · rw [candStep_some, if_neg h] at hb
          obtain rfl : b0 = b := by injection hb
          refine ⟨hb20, pre, post ++ [c], by rw [hdec]; simp, hpre, ?_⟩
          intro c' hc'
          rcases List.mem_append.mp hc' with hm | hm
          · exact hpost c' hm
          · simp at hm
            subst hm
            by_cases hc20 : c'.dist < 20
            · by_contra hlt
              exact h ⟨hc20, lt_of_not_le hlt⟩
            · have : (20 : ℝ) ≤ c'.dist := not_lt.mp hc20
              linarith

/-- C9: `findClosestBone` picks, among each bone's world origin and (when
`length > 0`) world end point, the candidate with minimum Euclidean distance
to the query among those strictly inside the 20-unit threshold; it returns
`null` exactly when no candidate is inside the threshold; on exact distance
ties the first candidate in scan (insertion) order wins. -/
theorem c9_findClosestBone_spec (bones : List Bone) (x y : ℝ) :
    (findClosestBone bones x y = none ↔ ∀ c ∈ pickCands bones x y, ¬ c.dist < 20) ∧
    (∀ r, findClosestBone bones x y = some r →
      ∃ c, isPickWinner (pickCands bones x y) c ∧ r = (c.id, c.attach)) := by
  have h := foldl_candStep_spec (pickCands bones x y)
  constructor
  · constructor
    · intro hn
      have : (pickCands bones x y).foldl candStep none = none := by
        unfold findClosestBone at hn
        exact Option.map_eq_none'.mp hn
      exact h.1 this
    · intro hall
      unfold findClosestBone
      cases hr : (pickCands bones x y).foldl candStep none with
      | none => rfl
      | some b =>
        exfalso
        have hw := h.2 b hr
        obtain ⟨hb20, pre, post, hdec, _, _⟩ := hw
        have hmem : b ∈ pickCands bones x y := by rw [hdec]; simp
        exact hall b hmem hb20
  · intro r hr
    unfold findClosestBone at hr
    obtain ⟨c, hc, hcr⟩ := Option.map_eq_some'.mp hr
    exact ⟨c, h.2 c hc, hcr.symm⟩

/-- A concrete zero-length joint at the origin. -/
def pickBone : Bone := ⟨0, "Bone_1", none, ⟨0, 0⟩, 0, 0, 50⟩

theorem c9_witness :
    ∃ c, isPickWinner (pickCands [pickBone] 0 0) c ∧
      ((0 : ℕ), Attach.origin) = (c.id, c.attach) := by
  have h := c9_findClosestBone_spec [pickBone] 0 0
  apply h.2 (0, Attach.origin)
  have hw : getWorldTransform [pickBone] 0 = ⟨0, 0, 0⟩ := by
    norm_num [getWorldTransform, findBone, pickBone, ancestorChain, transformStep]
  have hd : distance (getWorldTransform [pickBone] 0).x (getWorldTransform [pickBone] 0).y 0 0
      = 0 := by
    rw [hw]
    norm_num [distance, Real.sqrt_zero]
  have hlen : pickBone.length = 0 := rfl
  have hid : pickBone.id = 0 := rfl
  unfold findClosestBone pickCands
  norm_num [boneCands, hlen, hid, hd, candStep]

/-- A sound candidate of the controlling-bone scan: the id names a bone of
the collection, the transform is that bone's world transform, and the
distance is the Euclidean distance from its world origin to the vertex. -/
noncomputable def goodCand (bones : List Bone) (v : Vec2)
    (t : ℕ × WorldTransform × ℝ) : Prop :=
  (∃ b ∈ bones, b.id = t.1) ∧ t.2.1 = getWorldTransform bones t.1 ∧
    t.2.2 = distance t.2.1.x t.2.1.y v.x v.y

lemma closestStep_none (bones : List Bone) (v : Vec2) (bone : Bone) :
    closestStep bones v none bone
      = some (bone.id, getWorldTransform bones bone.id,
          distance (getWorldTransform bones bone.id).x
            (getWorldTransform bones bone.id).y v.x v.y) := rfl

lemma closestStep_some (bones : List Bone) (v : Vec2) (bone : Bone)
    (bid : ℕ) (w : WorldTransform) (bd : ℝ) :
    closestStep bones v (some (bid, w, bd)) bone
      = if distance (getWorldTransform bones bone.id).x
            (getWorldTransform bones bone.id).y v.x v.y < bd
        then some (bone.id, getWorldTransform bones bone.id,
              distance (getWorldTransform bones bone.id).x
                (getWorldTransform bones bone.id).y v.x v.y)
        else some (bid, w, bd) := rfl

lemma foldl_closestStep_ne_none (bones : List Bone) (v : Vec2) :
    ∀ (l : List Bone) (acc : Option (ℕ × WorldTransform × ℝ)),
      l.foldl (closestStep bones v) acc = none → acc = none ∧ l = [] := by
  intro l
  induction l with
  | nil => intro acc h; exact ⟨h, rfl⟩
  | cons bone rest ih =>
    intro acc h
    rw [List.foldl_cons] at h
    have := (ih _ h).1
    exfalso
    rcases acc with _ | ⟨bid, w, bd⟩
    · rw [closestStep_none] at this
      exact Option.some_ne_none _ this
    · rw [closestStep_some] at this
      by_cases hd : distance (getWorldTransform bones bone.id).x
          (getWorldTransform bones bone.id).y v.x v.y < bd
      · rw [if_pos hd] at this; exact Option.some_ne_none _ this
      · rw [if_neg hd] at this; exact Option.some_ne_none _ this

lemma foldl_closestStep_min (bones : List Bone) (v : Vec2) :
    ∀ (l : List Bone) (acc : Option (ℕ × WorldTransform × ℝ)),
      (∀ b ∈ l, b ∈ bones) →
      (∀ t, acc = some t → goodCand bones v t) →
      ∀ t, l.foldl (closestStep bones v) acc = some t →
        goodCand bones v t ∧
        (∀ b ∈ l, t.2.2 ≤ distance (getWorldTransform bones b.id).x
            (getWorldTransform bones b.id).y v.x v.y) ∧
        (∀ t₀, acc = some t₀ → t.2.2 ≤ t₀.2.2) := by
  intro l
  induction l with
  | nil =>
    intro acc _ hacc t ht
    refine ⟨hacc t ht, by simp, ?_⟩
    intro t₀ h₀
    rw [List.foldl_nil] at ht
    rw [h₀] at ht
    injection ht with h
    rw [h]
  | cons bone rest ih =>
    intro acc hsub hacc t ht
    rw [List.foldl_cons] at ht
    have hbone : bone ∈ bones := hsub bone (List.mem_cons_self _ _)
    have hacc' : ∀ t', closestStep bones v acc bone = some t' → goodCand bones v t' := by
      intro t' ht'
      rcases acc with _ | ⟨bid, w, bd⟩
      · rw [closestStep_none] at ht'
        injection ht' with h
        rw [← h]
        exact ⟨⟨bone, hbone, rfl⟩, rfl, rfl⟩
      · rw [closestStep_some] at ht'
        by_cases hd : distance (getWorldTransform bones bone.id).x
            (getWorldTransform bones bone.id).y v.x v.y < bd
        · rw [if_pos hd] at ht'
          injection ht' with h
          rw [← h]
          exact ⟨⟨bone, hbone, rfl⟩, rfl, rfl⟩
        · rw [if_neg hd] at ht'
          exact hacc _ ht'
    obtain ⟨hgood, hrest, hstep⟩ :=
      ih (closestStep bones v acc bone) (fun b hb => hsub b (List.mem_cons_of_mem _ hb))
        hacc' t ht
    refine ⟨hgood, ?_, ?_⟩
    · intro b hb
      rcases List.mem_cons.mp hb with rfl | hb'
      · rcases acc with _ | ⟨bid, w, bd⟩
        · exact hstep _ (closestStep_none bones v b)
        · by_cases hd : distance (getWorldTransform bones b.id).x
              (getWorldTransform bones b.id).y v.x v.y < bd
          · exact hstep (b.id, getWorldTransform bones b.id,
              distance (getWorldTransform bones b.id).x
                (getWorldTransform bones b.id).y v.x v.y)
              (by rw [closestStep_some, if_pos hd])
          · have h1 : t.2.2 ≤ bd := hstep (bid, w, bd) (by rw [closestStep_some, if_neg hd])
            exact le_trans h1 (not_lt.mp hd)
      · exact hrest b hb'
    · intro t₀ h₀
      subst h₀
      rcases t₀ with ⟨bid, w, bd⟩
      by_cases hd : distance (getWorldTransform bones bone.id).x
          (getWorldTransform bones bone.id).y v.x v.y < bd
      · have h1 : t.2.2 ≤ distance (getWorldTransform bones bone.id).x
            (getWorldTransform bones bone.id).y v.x v.y :=
          hstep (bone.id, getWorldTransform bones bone.id,
            distance (getWorldTransform bones bone.id).x
              (getWorldTransform bones bone.id).y v.x v.y)
            (by rw [closestStep_some, if_pos hd])
        exact le_trans h1 hd.le
      · exact hstep (bid, w, bd) (by rw [closestStep_some, if_neg hd])

/-- Every result of `closestBoneTo` is a sound candidate that minimizes the
distance over the whole collection (first bone scanned wins exact ties). -/
lemma closestBoneTo_spec {bones : List Bone} {v : Vec2}
    {t : ℕ × WorldTransform × ℝ} (h : closestBoneTo bones v = some t) :
    goodCand bones v t ∧
      ∀ b ∈ bones, t.2.2 ≤ distance (getWorldTransform bones b.id).x
          (getWorldTransform bones b.id).y v.x v.y := by
  have := foldl_closestStep_min bones v bones none (fun _ hb => hb) (by intro t' ht'; cases ht')
    t h
  exact ⟨this.1, this.2.1⟩

lemma closestBoneTo_isSome {bones : List Bone} (hb : bones ≠ []) (v : Vec2) :
    ∃ t, closestBoneTo bones v = some t := by
  cases ht : closestBoneTo bones v with
  | some t => exact ⟨t, rfl⟩
  | none => exact absurd (foldl_closestStep_ne_none bones v bones none ht).2 hb

lemma filterMap_total {α β : Type} (f : α → Option β) (g : α → β) :
    ∀ l : List α, (∀ x ∈ l, f x = some (g x)) → l.filterMap f = l.map g := by
  intro l
  induction l with
  | nil => intro _; rfl
  | cons x rest ih =>
    intro h
    rw [List.filterMap_cons, h x (List.mem_cons_self _ _), List.map_cons,
      ih (fun y hy => h y (List.mem_cons_of_mem _ hy))]

/-- The bind entry for vertex `i`, totalized (equal to `bindEntryFor`
whenever the skeleton is nonempty). -/
noncomputable def forcedEntry (bones : List Bone) (i : ℕ) (v : Vec2) : BindEntry :=
  (bindEntryFor bones i v).getD ⟨0, 0, 0, i⟩

lemma forcedEntry_index (bones : List Bone) (i : ℕ) (v : Vec2) :
    (forcedEntry bones i v).index = i := by
  unfold forcedEntry bindEntryFor
  cases closestBoneTo bones v with
  | none => rfl
  | some t => rcases t with ⟨bid, w, d⟩; rfl

lemma bindEntryFor_eq_forced {bones : List Bone} (hb : bones ≠ []) (i : ℕ) (v : Vec2) :
    bindEntryFor bones i v = some (forcedEntry bones i v) := by
  obtain ⟨t, ht⟩ := closestBoneTo_isSome hb v
  rcases t with ⟨bid, w, d⟩
  unfold forcedEntry bindEntryFor
  rw [ht]
  rfl

lemma bindVertices_eq_map {bones : List Bone} (hb : bones ≠ []) (verts : List Vec2) :
    bindVertices bones verts
      = verts.enum.map (fun iv => forcedEntry bones iv.1 iv.2) := by
  unfold bindVertices
  exact filterMap_total _ _ _ (fun iv _ => bindEntryFor_eq_forced hb iv.1 iv.2)

lemma bindVertices_length {bones : List Bone} (hb : bones ≠ []) (verts : List Vec2) :
    (bindVertices bones verts).length = verts.length := by
  rw [bindVertices_eq_map hb, List.length_map, List.enum_length]

lemma bindVertices_getElem {bones : List Bone} (hb : bones ≠ []) (verts : List Vec2)
    (i : ℕ) (hi : i < verts.length) :
    (bindVertices bones verts)[i]?
      = some (forcedEntry bones i (verts.get ⟨i, hi⟩)) := by
  rw [bindVertices_eq_map hb, List.getElem?_map, List.getElem?_enum,
    List.getElem?_eq_getElem hi]
  simp [List.get_eq_getElem]

lemma bindVertices_mem {bones : List Bone} (hb : bones ≠ []) {verts : List Vec2}
    {e : BindEntry} (he : e ∈ bindVertices bones verts) :
    ∃ hi : e.index < verts.length,
      e = forcedEntry bones e.index (verts.get ⟨e.index, hi⟩) := by
  rw [bindVertices_eq_map hb] at he
  obtain ⟨iv, hiv, hie⟩ := List.mem_map.mp he
  obtain ⟨⟨k, hk⟩, hkv⟩ := List.mem_iff_get.mp hiv
  have hkl : k < verts.length := by
    have := hk
    rwa [List.enum_length] at this
  have hkv' : iv = (k, verts.get ⟨k, hkl⟩) := by
    rw [← hkv]
    have := List.getElem_enum verts k (by rwa [List.enum_length] at hk)
    simp [List.get_eq_getElem, this]
  subst hkv'
  have hidx : e.index = k := by rw [← hie, forcedEntry_index]
  subst hidx
  exact ⟨hkl, hie.symm⟩

lemma foldl_set_length (f : BindEntry → Vec2) :
    ∀ (bd : List BindEntry) (verts : List Vec2),
      (bd.foldl (fun vs e => vs.set e.index (f e)) verts).length = verts.length := by
  intro bd
  induction bd with
  | nil => intro verts; rfl
  | cons e rest ih =>
    intro verts
    rw [List.foldl_cons, ih, List.length_set]

lemma foldl_set_untouched (f : BindEntry → Vec2) :
    ∀ (bd : List BindEntry) (verts : List Vec2) (j : ℕ),
      (∀ e ∈ bd, e.index ≠ j) →
      (bd.foldl (fun vs e => vs.set e.index (f e)) verts)[j]? = verts[j]? := by
  intro bd
  induction bd with
  | nil => intro verts j _; rfl
  | cons e rest ih =>
    intro verts j h
    rw [List.foldl_cons, ih _ _ (fun e' he' => h e' (List.mem_cons_of_mem _ he')),
      List.getElem?_set_ne (h e (List.mem_cons_self _ _))]

lemma foldl_set_getElem (f : BindEntry → Vec2) :
    ∀ (bd : List BindEntry) (verts : List Vec2) (e : BindEntry), e ∈ bd →
      e.index < verts.length →
      (∀ e' ∈ bd, e'.index = e.index → e' = e) →
      (bd.foldl (fun vs x => vs.set x.index (f x)) verts)[e.index]? = some (f e) := by
  intro bd
  induction bd with
  | nil => intro verts e he; exact absurd he (by simp)
  | cons x rest ih =>
    intro verts e he hlen huniq
    rw [List.foldl_cons]
    by_cases hm : e ∈ rest
    · exact ih _ e hm (by rwa [List.length_set])
        (fun e' he' hidx => huniq e' (List.mem_cons_of_mem _ he') hidx)
    · have hex : e = x := by
        rcases List.mem_cons.mp he with h | h
        · exact h
        · exact absurd h hm
      subst hex
      have hnone : ∀ e' ∈ rest, e'.index ≠ e.index := by
        intro e' he' hne
        exact hm ((huniq e' (List.mem_cons_of_mem _ he') hne) ▸ he')
      rw [foldl_set_untouched f rest _ _ hnone, List.getElem?_set_self hlen]

/-- C2: end-to-end rigid skinning.  With a mesh and a nonempty skeleton,
binding produces one entry per vertex at the vertex's own buffer index; the
entry's bone minimizes the Euclidean distance from its bind-time world origin
to the vertex over all bones; the entry stores the vertex offset de-rotated
by the bone's bind-time world rotation; and every subsequent deformation pass
writes, at the recorded index, the bone's current world position plus the
stored offset rotated by the bone's current world rotation.  In particular a
single bone at the origin with rotation 0 and a vertex at (10,0) binds to
local offset (10,0), and after rotating the bone to π/2 the deformed vertex
is (0,10). -/
theorem c2_rigid_skinning (bones bonesNow : List Bone) (verts : List Vec2)
    (hb : bones ≠ []) :
    (bindVertices bones verts).length = verts.length ∧
    (∀ (i : ℕ) (hi : i < verts.length), ∃ e : BindEntry,
      (bindVertices bones verts)[i]? = some e ∧
      e.index = i ∧
      (∃ b ∈ bones, b.id = e.boneId) ∧
      (∀ b ∈ bones,
        distance (getWorldTransform bones e.boneId).x (getWorldTransform bones e.boneId).y
            (verts.get ⟨i, hi⟩).x (verts.get ⟨i, hi⟩).y
          ≤ distance (getWorldTransform bones b.id).x (getWorldTransform bones b.id).y
              (verts.get ⟨i, hi⟩).x (verts.get ⟨i, hi⟩).y) ∧
      e.localX = Real.cos (-(getWorldTransform bones e.boneId).rotation)
            * ((verts.get ⟨i, hi⟩).x - (getWorldTransform bones e.boneId).x)
          - Real.sin (-(getWorldTransform bones e.boneId).rotation)
            * ((verts.get ⟨i, hi⟩).y - (getWorldTransform bones e.boneId).y) ∧
      e.localY = Real.sin (-(getWorldTransform bones e.boneId).rotation)
            * ((verts.get ⟨i, hi⟩).x - (getWorldTransform bones e.boneId).x)
          + Real.cos (-(getWorldTransform bones e.boneId).rotation)
            * ((verts.get ⟨i, hi⟩).y - (getWorldTransform bones e.boneId).y) ∧
      (∀ (sc : Scene) (cur : List Vec2), sc.currentMesh = some cur →
        sc.bindData = some (bindVertices bones verts) → cur.length = verts.length →
        ∃ verts2, (updateDeformation sc bonesNow).currentMesh = some verts2 ∧
          verts2[i]? = some (deformedVertex bonesNow e))) ∧
    bindVertices [pickBone] [⟨10, 0⟩] = [⟨0, 10, 0, 0⟩] ∧
    (updateDeformation ⟨some [⟨10, 0⟩], some [⟨0, 10, 0, 0⟩], some [⟨10, 0⟩]⟩
        [{ pickBone with rotation := Real.pi / 2 }]).currentMesh = some [⟨0, 10⟩] := by
  have hw : getWorldTransform [pickBone] 0 = ⟨0, 0, 0⟩ := by
    norm_num [getWorldTransform, findBone, pickBone, ancestorChain, transformStep]
  have hclosest : closestBoneTo [pickBone] ⟨10, 0⟩
      = some (0, ⟨0, 0, 0⟩, distance 0 0 10 0) := by
    unfold closestBoneTo
    rw [List.foldl_cons, closestStep_none, List.foldl_nil]
    simp [hw, show pickBone.id = 0 from rfl]
  have hentry : bindEntryFor [pickBone] 0 ⟨10, 0⟩ = some ⟨0, 10, 0, 0⟩ := by
    unfold bindEntryFor
    rw [hclosest]
    norm_num [Real.cos_zero, Real.sin_zero]
  have hw2 : getWorldTransform [{ pickBone with rotation := Real.pi / 2 }] 0
      = ⟨0, 0, Real.pi / 2⟩ := by
    norm_num [getWorldTransform, findBone, pickBone, ancestorChain, transformStep]
  have hdv : deformedVertex [{ pickBone with rotation := Real.pi / 2 }] ⟨0, 10, 0, 0⟩
      = ⟨0, 10⟩ := by
    unfold deformedVertex
    rw [hw2]
    norm_num [Real.cos_pi_div_two, Real.sin_pi_div_two]
  refine ⟨bindVertices_length hb verts, ?_, ?_, ?_⟩
  case refine_2 =>
    unfold bindVertices
    norm_num [List.enum, List.enumFrom, List.filterMap_cons, hentry]
  case refine_3 =>
    unfold updateDeformation
    norm_num [hdv, List.set]
  intro i hi
  refine ⟨forcedEntry bones i (verts.get ⟨i, hi⟩), bindVertices_getElem hb verts i hi,
    forcedEntry_index bones i _, ?_⟩
  obtain ⟨t, ht⟩ := closestBoneTo_isSome hb (verts.get ⟨i, hi⟩)
  rcases t with ⟨bid, w, d⟩
  obtain ⟨⟨hbid, hw, hd⟩, hmin⟩ := closestBoneTo_spec ht
  have hforced : forcedEntry bones i (verts.get ⟨i, hi⟩)
      = ⟨bid,
          Real.cos (-w.rotation) * ((verts.get ⟨i, hi⟩).x - w.x)
            - Real.sin (-w.rotation) * ((verts.get ⟨i, hi⟩).y - w.y),
          Real.sin (-w.rotation) * ((verts.get ⟨i, hi⟩).x - w.x)
            + Real.cos (-w.rotation) * ((verts.get ⟨i, hi⟩).y - w.y),
          i⟩ := by
    unfold forcedEntry bindEntryFor
    rw [ht]
    rfl
  have hwq : w = getWorldTransform bones bid := hw
  refine ⟨?_, ?_, ?_, ?_, ?_⟩
  · rw [hforced]
    exact hbid
  · intro b hbmem
    have h1 := hmin b hbmem
    rw [hd, hwq] at h1
    rw [hforced]
    exact h1
  · rw [hforced, ← hwq]
  · rw [hforced, ← hwq]
  · intro sc cur hcur hbind hlen
    refine ⟨(bindVertices bones verts).foldl
      (fun vs x => vs.set x.index (deformedVertex bonesNow x)) cur, ?_, ?_⟩
    · unfold updateDeformation
      rw [hcur, hbind]
    · have he : forcedEntry bones i (verts.get ⟨i, hi⟩) ∈ bindVertices bones verts := by
        have hg := bindVertices_getElem hb verts i hi
        rw [List.getElem?_eq_some] at hg
        obtain ⟨hii, hgg⟩ := hg
        exact hgg ▸ List.getElem_mem ..
      have huniq : ∀ e' ∈ bindVertices bones verts,
          e'.index = (forcedEntry bones i (verts.get ⟨i, hi⟩)).index →
          e' = forcedEntry bones i (verts.get ⟨i, hi⟩) := by
        intro e' he' hidx
        obtain ⟨hi', heq⟩ := bindVertices_mem hb he'
        rw [forcedEntry_index] at hidx
        subst hidx
        exact heq
      have := foldl_set_getElem (deformedVertex bonesNow) (bindVertices bones verts) cur
        (forcedEntry bones i (verts.get ⟨i, hi⟩)) he
        (by rw [forcedEntry_index, hlen]; exact hi) huniq
      rwa [forcedEntry_index] at this

theorem c2_witness :
    bindVertices [pickBone] [⟨10, 0⟩] = [⟨0, 10, 0, 0⟩] ∧
    (updateDeformation ⟨some [⟨10, 0⟩], some [⟨0, 10, 0, 0⟩], some [⟨10, 0⟩]⟩
        [{ pickBone with rotation := Real.pi / 2 }]).currentMesh = some [⟨0, 10⟩] := by
  have h := c2_rigid_skinning [pickBone] [pickBone] [⟨10, 0⟩] (by simp)
  exact ⟨h.2.2.1, h.2.2.2⟩

lemma collectDesc_self (bones : List Bone) :
    ∀ (fuel pid : ℕ), pid ∈ collectDesc bones fuel pid := by
  intro fuel pid
  cases fuel with
  | zero => simp [collectDesc]
  | succ f => simp [collectDesc]

lemma collectDesc_sound (bones : List Bone) :
    ∀ (fuel x y : ℕ), y ∈ collectDesc bones fuel x → DescSelf bones x y := by
  intro fuel
  induction fuel with
  | zero =>
    intro x y h
    simp [collectDesc] at h
    subst h
    exact Relation.ReflTransGen.refl
  | succ f ih =>
    intro x y h
    simp only [collectDesc, List.mem_cons] at h
    rcases h with rfl | h
    · exact Relation.ReflTransGen.refl
    · obtain ⟨c, hc, hy⟩ := List.mem_flatMap.mp h
      obtain ⟨hcmem, hcp⟩ := List.mem_filter.mp hc
      have hcp' : c.parentId = some x := by
        have := hcp
        rwa [beq_iff_eq] at this
      have hstep : childStep bones x c.id := ⟨c, hcmem, rfl, hcp'⟩
      exact Relation.ReflTransGen.head hstep (ih c.id y hy)

lemma forest_id_index_unique {bones : List Bone} (hF : Forest bones)
    {i j : ℕ} (hi : i < bones.length) (hj : j < bones.length)
    (h : (bones.get ⟨i, hi⟩).id = (bones.get ⟨j, hj⟩).id) : i = j := by
  have hnd := forest_nodup_ids hF
  have hlen : i < (bones.map Bone.id).length := by rwa [List.length_map]
  have hlen' : j < (bones.map Bone.id).length := by rwa [List.length_map]
  have h' : (bones.map Bone.id).get ⟨i, hlen⟩ = (bones.map Bone.id).get ⟨j, hlen'⟩ := by
    simpa using h
  have := (List.Nodup.get_inj_iff hnd).mp h'
  simpa using this

lemma collectDesc_complete {bones : List Bone} (hF : Forest bones) :
    ∀ (fuel i : ℕ) (hi : i < bones.length) (y : ℕ),
      DescSelf bones (bones.get ⟨i, hi⟩).id y → bones.length - i ≤ fuel →
      y ∈ collectDesc bones fuel (bones.get ⟨i, hi⟩).id := by
  intro fuel
  induction fuel with
  | zero =>
    intro i hi y _ hb
    omega
  | succ f ih =>
    intro i hi y hdesc _
    rcases Relation.ReflTransGen.cases_head hdesc with rfl | ⟨z, hstep, hrest⟩
    · exact collectDesc_self bones _ _
    · obtain ⟨c, hcmem, hcz, hcp⟩ := hstep
      obtain ⟨⟨k, hk⟩, hck⟩ := List.mem_iff_get.mp hcmem
      obtain ⟨j, hj, hjk, hjid⟩ := forest_parent_index hF hk (by rw [hck]; exact hcp)
      have hji : j = i := forest_id_index_unique hF hj hi hjid
      have hki : i < k := by omega
      simp only [collectDesc, List.mem_cons]
      right
      refine List.mem_flatMap.mpr ⟨c, ?_, ?_⟩
      · refine List.mem_filter.mpr ⟨hcmem, ?_⟩
        rw [beq_iff_eq, hcp]
      · have hrest' : DescSelf bones (bones.get ⟨k, hk⟩).id y := by
          rw [hck, hcz]
          exact hrest
        have := ih k hk y hrest' (by omega)
        rwa [hck] at this

/-- Under the forest invariant, the id set computed by `removeBone`'s
recursive `collectChildren` (with `bones.length` fuel) is exactly the
reflexive-transitive descendant closure of the root id. -/
lemma collectDesc_iff {bones : List Bone} (hF : Forest bones) (x y : ℕ) :
    y ∈ collectDesc bones bones.length x ↔ DescSelf bones x y := by
  constructor
  · exact collectDesc_sound bones bones.length x y
  · intro h
    rcases Relation.ReflTransGen.cases_head h with rfl | ⟨z, hstep, hrest⟩
    · exact collectDesc_self bones _ _
    · obtain ⟨c, hcmem, hcz, hcp⟩ := hstep
      obtain ⟨⟨k, hk⟩, hck⟩ := List.mem_iff_get.mp hcmem
      obtain ⟨j, hj, hjk, _⟩ := forest_parent_index hF hk (by rw [hck]; exact hcp)
      obtain ⟨m, hm⟩ : ∃ m, bones.length = m + 1 := ⟨bones.length - 1, by omega⟩
      rw [hm]
      simp only [collectDesc, List.mem_cons]
      right
      refine List.mem_flatMap.mpr ⟨c, ?_, ?_⟩
      · refine List.mem_filter.mpr ⟨hcmem, ?_⟩
        rw [beq_iff_eq, hcp]
      · have hrest' : DescSelf bones (bones.get ⟨k, hk⟩).id y := by
          rw [hck, hcz]
          exact hrest
        have := collectDesc_complete hF m k hk y hrest' (by omega)
        rwa [hck] at this

/-- C7: `removeBone(id)` for a present id removes exactly the bone and its
full transitive descendant set and no other bones; it clears the selection
exactly when the removed set contains the active bone, and leaves the
selection intact when the active bone is outside the removed set. -/
theorem c7_removeBone_spec (s : EditorState) (hF : Forest s.bones) (id : ℕ)
    (hpresent : ∃ b ∈ s.bones, b.id = id) :
    (∀ b : Bone, b ∈ (removeBone s id).bones ↔ b ∈ s.bones ∧ ¬ DescSelf s.bones id b.id) ∧
    (∀ a : ℕ, s.activeBoneId = some a → DescSelf s.bones id a →
      (removeBone s id).activeBoneId = none) ∧
    (∀ a : ℕ, s.activeBoneId = some a → ¬ DescSelf s.bones id a →
      (removeBone s id).activeBoneId = some a) := by
  have hcontains : ∀ y : ℕ,
      (collectDesc s.bones s.bones.length id).contains y = true ↔ DescSelf s.bones id y := by
    intro y
    rw [List.elem_iff]
    exact collectDesc_iff hF id y
  have hnotc : ∀ y : ℕ, (collectDesc s.bones s.bones.length id).contains y = false
      ↔ ¬ DescSelf s.bones id y := by
    intro y
    constructor
    · intro h hd
      have h2 := (hcontains y).mpr hd
      rw [h] at h2
      exact Bool.false_ne_true h2
    · intro h
      cases hc : (collectDesc s.bones s.bones.length id).contains y
      · rfl
      · exact absurd ((hcontains y).mp hc) h
  refine ⟨?_, ?_, ?_⟩
  · intro b
    have hbones : (removeBone s id).bones
        = s.bones.filter
            (fun b => !((collectDesc s.bones s.bones.length id).contains b.id)) := rfl
    rw [hbones, List.mem_filter]
    constructor
    · rintro ⟨hmem, hp⟩
      refine ⟨hmem, ?_⟩
      rw [Bool.not_eq_true'] at hp
      exact (hnotc b.id).mp hp
    · rintro ⟨hmem, hp⟩
      refine ⟨hmem, ?_⟩
      rw [Bool.not_eq_true']
      exact (hnotc b.id).mpr hp
  · intro a ha hd
    have hc := (hcontains a).mpr hd
    simp only [removeBone, ha]
    rw [if_pos hc]
  · intro a ha hd
    have hc := (hnotc a).mpr hd
    simp only [removeBone, ha]
    rw [if_neg ?_]
    intro h2
    rw [hc] at h2
    exact Bool.false_ne_true h2

theorem c7_witness :
    (∀ b : Bone,
      b ∈ (removeBone { initialState with
            bones := [rootBone, childBone], activeBoneId := some 0 } 1).bones ↔
        b ∈ [rootBone, childBone] ∧ ¬ DescSelf [rootBone, childBone] 1 b.id) ∧
    (∀ a : ℕ, (some 0 : Option ℕ) = some a → DescSelf [rootBone, childBone] 1 a →
      (removeBone { initialState with
          bones := [rootBone, childBone], activeBoneId := some 0 } 1).activeBoneId = none) ∧
    (∀ a : ℕ, (some 0 : Option ℕ) = some a → ¬ DescSelf [rootBone, childBone] 1 a →
      (removeBone { initialState with
          bones := [rootBone, childBone], activeBoneId := some 0 } 1).activeBoneId
        = some a) :=
  c7_removeBone_spec
    { initialState with bones := [rootBone, childBone], activeBoneId := some 0 }
    forest_root_child 1 ⟨childBone, by simp, rfl⟩

lemma forestFrom_append :
    ∀ (bones : List Bone) (seen : List ℕ) (b : Bone),
      ForestFrom seen bones → b.id ∉ seen → b.id ∉ bones.map Bone.id →
      (∀ pid, b.parentId = some pid → pid ∈ seen ∨ pid ∈ bones.map Bone.id) →
      ForestFrom seen (bones ++ [b]) := by
  intro bones
  induction bones with
  | nil =>
    intro seen b _ hnin _ hpar
    refine ⟨hnin, ?_, trivial⟩
    intro pid hp
    rcases hpar pid hp with h | h
    · exact h
    · simp at h
  | cons c rest ih =>
    intro seen b hF hnin hnin2 hpar
    obtain ⟨h1, h2, h3⟩ := hF
    refine ⟨h1, h2, ?_⟩
    refine ih (c.id :: seen) b h3 ?_ ?_ ?_
    · intro hmem
      rcases List.mem_cons.mp hmem with h | h
      · exact hnin2 (by simp [h])
      · exact hnin h
    · intro hmem
      exact hnin2 (by simp; right; simpa using hmem)
    · intro pid hp
      rcases hpar pid hp with h | h
      · exact Or.inl (List.mem_cons_of_mem _ h)
      · rcases (by simpa using h : pid = c.id ∨ ∃ a ∈ rest, a.id = pid) with h' | ⟨a, ha, haid⟩
        · exact Or.inl (by rw [h']; exact List.mem_cons_self _ _)
        · exact Or.inr (List.mem_map.mpr ⟨a, ha, haid⟩)

lemma forestFrom_filter :
    ∀ (bones : List Bone) (seen seen' : List ℕ) (p : Bone → Bool),
      ForestFrom seen bones →
      (∀ i ∈ seen', i ∈ seen) →
      (∀ pid c, c ∈ bones → p c = true → c.parentId = some pid → pid ∈ seen →
        pid ∈ seen') →
      (∀ c ∈ bones, p c = true → ∀ pid, c.parentId = some pid →
        ∀ q ∈ bones, q.id = pid → p q = true) →
      ForestFrom seen' (bones.filter p) := by
  intro bones
  induction bones with
  | nil => intro seen seen' p _ _ _ _; trivial
  | cons b rest ih =>
    intro seen seen' p hF hsub hkeep hclosed
    obtain ⟨h1, h2, h3⟩ := hF
    cases hpb : p b with
    | true =>
      rw [List.filter_cons_of_pos hpb]
      refine ⟨fun hmem => h1 (hsub _ hmem), ?_, ?_⟩
      · intro pid hp
        exact hkeep pid b (List.mem_cons_self _ _) hpb hp (h2 pid hp)
      · refine ih (b.id :: seen) (b.id :: seen') p h3 ?_ ?_ ?_
        · intro i hi
          rcases List.mem_cons.mp hi with h | h
          · exact h ▸ List.mem_cons_self _ _
          · exact List.mem_cons_of_mem _ (hsub i h)
        · intro pid c hc hpc hpar hpseen
          rcases List.mem_cons.mp hpseen with h | h
          · exact h ▸ List.mem_cons_self _ _
          · exact List.mem_cons_of_mem _
              (hkeep pid c (List.mem_cons_of_mem _ hc) hpc hpar h)
        · intro c hc hpc pid hpar q hq hqid
          exact hclosed c (List.mem_cons_of_mem _ hc) hpc pid hpar q
            (List.mem_cons_of_mem _ hq) hqid
    | false =>
      rw [List.filter_cons_of_neg (by simp [hpb])]
      refine ih (b.id :: seen) seen' p h3 ?_ ?_ ?_
      · intro i hi
        exact List.mem_cons_of_mem _ (hsub i hi)
      · intro pid c hc hpc hpar hpseen
        rcases List.mem_cons.mp hpseen with h | h
        · exfalso
          have := hclosed c (List.mem_cons_of_mem _ hc) hpc pid hpar b
            (List.mem_cons_self _ _) h.symm
          rw [hpb] at this
          exact Bool.false_ne_true this
        · exact hkeep pid c (List.mem_cons_of_mem _ hc) hpc hpar h
      · intro c hc hpc pid hpar q hq hqid
        exact hclosed c (List.mem_cons_of_mem _ hc) hpc pid hpar q
          (List.mem_cons_of_mem _ hq) hqid

lemma forestFrom_map :
    ∀ (bones : List Bone) (seen : List ℕ) (f : Bone → Bone),
      (∀ b, (f b).id = b.id ∧ (f b).parentId = b.parentId) →
      ForestFrom seen bones → ForestFrom seen (bones.map f) := by
  intro bones
  induction bones with
  | nil => intro seen f _ _; trivial
  | cons b rest ih =>
    intro seen f hf hF
    obtain ⟨h1, h2, h3⟩ := hF
    refine ⟨(hf b).1 ▸ h1, ?_, ?_⟩
    · intro pid hp
      exact h2 pid ((hf b).2 ▸ hp)
    · rw [(hf b).1]
      exact ih (b.id :: seen) f hf h3

/-- The store invariant maintained across operations: the bone collection is
a forest and every bone id is below the fresh-id counter (the model of uuid
freshness). -/
def StoreInv (s : EditorState) : Prop :=
  Forest s.bones ∧ ∀ b ∈ s.bones, b.id < s.nextId

/-- C8 counterexample: `addBone` with a dangling parent id does not preserve
the forest invariant — starting from the empty (forest) store it produces a
collection whose single bone's `parentId` names no earlier bone. -/
theorem c8_counterexample :
    Forest initialState.bones ∧
    ¬ Forest (addBone initialState ⟨some 99, ⟨0, 0⟩, 0, 0, 50⟩).bones := by
  constructor
  · trivial
  · intro h
    obtain ⟨_, hpar, _⟩ := h
    have := hpar 99 rfl
    simp at this

/-- C8 amended: `removeBone`, `resetPose` and `setBound` preserve the forest
invariant unconditionally; `addBone` preserves it whenever its `parentId`
argument is none or names an existing bone (ids being fresh by construction);
`updateBone` preserves it whenever the update does not change `id` or
`parentId` (as every caller in the repository does). -/
theorem c8_forest_preservation (s : EditorState) (hinv : StoreInv s) :
    (∀ d : BoneData, (d.parentId = none ∨ ∃ p ∈ s.bones, d.parentId = some p.id) →
      StoreInv (addBone s d)) ∧
    (∀ id : ℕ, StoreInv (removeBone s id)) ∧
    (∀ (id : ℕ) (u : BoneUpdate), u.id = none → u.parentId = none →
      StoreInv (updateBone s id u)) ∧
    StoreInv (resetPose s) ∧
    (∀ b : Bool, StoreInv (setBound s b)) := by
  obtain ⟨hF, hfresh⟩ := hinv
  refine ⟨?_, ?_, ?_, ?_, ?_⟩
  · intro d hd
    constructor
    · refine forestFrom_append s.bones [] _ hF (by simp) ?_ ?_
      · intro hmem
        obtain ⟨b, hb, hbid⟩ := List.mem_map.mp hmem
        have h1 : b.id < s.nextId := hfresh b hb
        have h2 : b.id = s.nextId := hbid
        omega
      · intro pid hp
        rcases hd with h | ⟨p, hp', hpid⟩
        · rw [h] at hp
          cases hp
        · rw [hpid] at hp
          injection hp with hp
          exact Or.inr (hp ▸ List.mem_map_of_mem Bone.id hp')
    · intro b hb
      rcases List.mem_append.mp hb with h | h
      · exact Nat.lt_succ_of_lt (hfresh b h)
      · simp at h
        rw [h]
        exact Nat.lt_succ_self _
  · intro id
    constructor
    · refine forestFrom_filter s.bones [] [] _ hF (fun i hi => hi) (fun _ _ _ _ _ h => h)
        ?_
      intro c hc hpc pid hpar q hq hqid
      by_contra hq'
      have hqmem : q.id ∈ collectDesc s.bones s.bones.length id := by
        cases hqc : (collectDesc s.bones s.bones.length id).contains q.id with
        | true => exact List.elem_iff.mp hqc
        | false => exact absurd (by rw [hqc]; rfl) hq'
      have hdesc : DescSelf s.bones id q.id := (collectDesc_iff hF id q.id).mp hqmem
      have hstep : childStep s.bones q.id c.id := ⟨c, hc, rfl, hqid ▸ hpar⟩
      have hdesc' : DescSelf s.bones id c.id := Relation.ReflTransGen.tail hdesc hstep
      have hcmem : c.id ∈ collectDesc s.bones s.bones.length id :=
        (collectDesc_iff hF id c.id).mpr hdesc'
      have hcont : (collectDesc s.bones s.bones.length id).contains c.id = true :=
        List.elem_iff.mpr hcmem
      rw [Bool.not_eq_true'] at hpc
      rw [hpc] at hcont
      exact Bool.false_ne_true hcont
    · intro b hb
      exact hfresh b (List.mem_of_mem_filter hb)
  · intro id u hid hpid
    have hf : ∀ b : Bone,
        ((fun b => if b.id == id then applyUpdate b u else b) b).id = b.id ∧
        ((fun b => if b.id == id then applyUpdate b u else b) b).parentId = b.parentId := by
      intro b
      by_cases h : b.id == id
      · simp only [h, if_pos]
        constructor
        · show (applyUpdate b u).id = b.id
          unfold applyUpdate
          rw [hid]
          rfl
        · show (applyUpdate b u).parentId = b.parentId
          unfold applyUpdate
          rw [hpid]
          rfl
      · simp [h]
    constructor
    · exact forestFrom_map s.bones [] _ hf hF
    · intro b hb
      obtain ⟨b0, hb0, hbeq⟩ := List.mem_map.mp hb
      rw [← hbeq, (hf b0).1]
      exact hfresh b0 hb0
  · cases hbp : s.bindPose with
    | none =>
      constructor
      · simpa [resetPose, hbp] using hF
      · intro b hb
        simp only [resetPose, hbp] at hb ⊢
        exact hfresh b hb
    | some m =>
      have hres : (resetPose s).bones = s.bones.map (fun (bone : Bone) =>
          match poseLookup m bone.id with
          | none => bone
          | some pose =>
            { bone with position := pose.position, rotation := pose.rotation }) := by
        simp [resetPose, hbp]
      have hnext : (resetPose s).nextId = s.nextId := by
        simp [resetPose, hbp]
      have hf : ∀ b : Bone,
          ((fun (bone : Bone) =>
            match poseLookup m bone.id with
            | none => bone
            | some pose =>
              { bone with position := pose.position, rotation := pose.rotation }) b).id
              = b.id ∧
          ((fun (bone : Bone) =>
            match poseLookup m bone.id with
            | none => bone
            | some pose =>
              { bone with position := pose.position, rotation := pose.rotation }) b).parentId
              = b.parentId := by
        intro b
        cases h : poseLookup m b.id <;> simp [h]
      constructor
      · rw [show Forest (resetPose s).bones
            = Forest (s.bones.map (fun (bone : Bone) =>
                match poseLookup m bone.id with
                | none => bone
                | some pose =>
                  { bone with position := pose.position, rotation := pose.rotation })) from
            congrArg Forest hres]
        exact forestFrom_map s.bones [] _ hf hF
      · intro b hb
        rw [hres] at hb
        rw [hnext]
        obtain ⟨b0, hb0, hbeq⟩ := List.mem_map.mp hb
        rw [← hbeq, (hf b0).1]
        exact hfresh b0 hb0
  · intro b
    cases b
    · exact ⟨hF, hfresh⟩
    · exact ⟨hF, hfresh⟩

theorem c8_witness :
    (∀ d : BoneData,
      (d.parentId = none ∨ ∃ p ∈ initialState.bones, d.parentId = some p.id) →
      StoreInv (addBone initialState d)) ∧
    (∀ id : ℕ, StoreInv (removeBone initialState id)) ∧
    (∀ (id : ℕ) (u : BoneUpdate), u.id = none → u.parentId = none →
      StoreInv (updateBone initialState id u)) ∧
    StoreInv (resetPose initialState) ∧
    (∀ b : Bool, StoreInv (setBound initialState b)) :=
  c8_forest_preservation initialState ⟨trivial, by simp [initialState]⟩

end PixelRig
